import Mathlib

/-!
Verification of the ptrace-based bind-mount path rewriter
(`src/android/proot/ptrace.rs`).

Strings are modelled as byte lists (`Str`), matching the byte-level
operations the source performs (`starts_with`, `as_bytes().get(..)`,
`len()`).  The traced process's memory is a total byte map `Nat → Nat`;
the fallibility of the ptrace word reads/writes is modelled by two
oracles `readOk`/`writeOk` indexed by the word address.  The aarch64
configuration of the source (the target platform of the application) is
the one embedded: syscall number in `regs[8]`, arguments in
`regs[0..6]`, no red-zone offset on the stack pointer.
-/

namespace Ptrace

/-- Byte strings, as the source manipulates them (`&[u8]` views of Rust
strings).  `47` is the byte of the path separator `/`. -/
abbrev Str := List Nat

/-- Bytes of a Lean string literal, for readable concrete test inputs. -/
def bytesOf (s : String) : Str := s.toList.map Char.toNat

/-- `path_suffix` from the source: segment-respecting prefix test.
Returns the suffix of `path` after `guest` when `guest` is a true
path-segment prefix of `path` (`guest` empty never matches; exact match
gives the empty suffix; otherwise the split must fall on a `/`). -/
def path_suffix (path guest : Str) : Option Str :=
  if guest.isEmpty || !(guest.isPrefixOf path) then none
  else if path.length = guest.length then some []
  else if guest.getLast? = some 47 then some (path.drop guest.length)
  else if path.get? guest.length = some 47 then some (path.drop guest.length)
  else none

/-- Reconstruction of the substitute path from the winning rule's host
part and the matched suffix (the `best.map` closure of `resolve_bind`):
insert a separating `/` only if neither side already supplies one. -/
def joinHost (host suffix : Str) : Str :=
  if suffix.isEmpty then host
  else if host.getLast? = some 47 ∨ suffix.head? = some 47 then host ++ suffix
  else host ++ 47 :: suffix

/-- The `for (host, guest) in binds` selection loop of `resolve_bind`:
keep the matching rule with the strictly longest guest prefix (strict
comparison, so the earliest rule wins ties). -/
def selectBest (path : Str) : List (Str × Str) → Option (Str × Str) × Str → Option (Str × Str) × Str
  | [], st => st
  | hg :: rest, st =>
      selectBest path rest
        (match path_suffix path hg.2 with
         | some suffix =>
             match st.1 with
             | none => (some hg, suffix)
             | some best => if best.2.length < hg.2.length then (some hg, suffix) else st
         | none => st)

/-- `resolve_bind` from the source: longest-guest-prefix resolution over
an ordered rule list. -/
def resolve_bind (path : Str) (binds : List (Str × Str)) : Option Str :=
  match selectBest path binds (none, []) with
  | (some best, suffix) => some (joinHost best.1 suffix)
  | (none, _) => none

/-! ## Remote memory access -/

/-- The traced process's memory, as a total byte map. -/
abbrev Mem := Nat → Nat

/-- `MAX_PATH` from the source. -/
def MAX_PATH : Nat := 4096

/-- One `ptrace::read`: a word (8 bytes) at `addr`, fallible according
to the `rok` oracle. -/
def readWord (rok : Nat → Bool) (mem : Mem) (addr : Nat) : Except Unit (List Nat) :=
  if rok addr then .ok ((List.range 8).map fun i => mem (addr + i)) else .error ()

/-- One `ptrace::write`: replace the 8 bytes at `addr` with `w`. -/
def writeWord (mem : Mem) (addr : Nat) (w : List Nat) : Mem :=
  fun x => if addr ≤ x ∧ x < addr + 8 then w.getD (x - addr) 0 else mem x

/-- Construction of the word to write: a full chunk is taken verbatim;
a final partial chunk is completed with the tail bytes of the existing
word, read back from the target (the splice of the source). -/
def spliceWord (rok : Nat → Bool) (mem : Mem) (addr : Nat) (bytes : List Nat) :
    Except Unit (List Nat) :=
  if min 8 bytes.length < 8 then
    match readWord rok mem addr with
    | .error e => .error e
    | .ok existing => .ok (bytes.take 8 ++ existing.drop (min 8 bytes.length))
  else .ok (bytes.take 8)

/-- The word loop of `write_bytes`, fuelled (one unit of fuel per word;
the caller supplies at least `bytes.length`, which always suffices since
every iteration consumes a full word of input). -/
def wbGo (rok wok : Nat → Bool) : Nat → Mem → Nat → List Nat → Except Unit Mem
  | _, mem, _, [] => .ok mem
  | 0, mem, _, _ => .ok mem
  | fuel + 1, mem, addr, bytes =>
      match spliceWord rok mem addr bytes with
      | .error e => .error e
      | .ok word =>
          if wok addr then wbGo rok wok fuel (writeWord mem addr word) (addr + 8) (bytes.drop 8)
          else .error ()

/-- `write_bytes` from the source: word-by-word write of `bytes` at
`addr`, splicing the tail of a final partial word. -/
def write_bytes (rok wok : Nat → Bool) (mem : Mem) (addr : Nat) (bytes : List Nat) :
    Except Unit Mem :=
  wbGo rok wok bytes.length mem addr bytes

/-- The word loop of `read_c_string`, fuelled with the number of words
remaining under the `MAX_PATH` cap (the source's `offset` stays a
multiple of the word size at the top of its loop, so the byte-level cap
check fires exactly at a word boundary). -/
def rcGo (rok : Nat → Bool) (mem : Mem) (addr : Nat) : Nat → Nat → List Nat →
    Except Unit (List Nat × Nat)
  | 0, _, acc => .ok (acc, acc.length)
  | fuel + 1, offset, acc =>
      match readWord rok mem (addr + offset) with
      | .error e => .error e
      | .ok word =>
          match word.findIdx? (fun b => b = 0) with
          | some i => .ok (acc ++ word.take i, (acc ++ word.take i).length)
          | none => rcGo rok mem addr fuel (offset + 8) (acc ++ word)

/-- `read_c_string` from the source: NUL-terminated byte string at
`addr`, capped at `MAX_PATH` bytes, together with its length excluding
the terminator. -/
def read_c_string (rok : Nat → Bool) (mem : Mem) (addr : Nat) : Except Unit (List Nat × Nat) :=
  rcGo rok mem addr (MAX_PATH / 8) 0 []

/-- Byte map holding the byte list `l` at base address `base` and `0`
everywhere else; a convenient concrete memory for tests. -/
def memOfList (base : Nat) (l : List Nat) : Mem :=
  fun x => if base ≤ x ∧ x < base + l.length then l.getD (x - base) 0 else 0

def allOk : Nat → Bool := fun _ => true

/-! ## ABI layer (aarch64) -/

/-- The aarch64 general-purpose register file: `regs[0..31]` plus the
stack pointer. -/
structure Regs where
  gpr : List Nat
  sp : Nat
deriving DecidableEq

/-- aarch64 `syscall_number`: `regs[8]`. -/
def syscall_number (r : Regs) : Nat := r.gpr.getD 8 0

/-- aarch64 `syscall_arg`: `regs[index]`, `0` when out of range. -/
def syscall_arg (r : Regs) (index : Nat) : Nat := r.gpr.getD index 0

/-- aarch64 `set_syscall_arg`: store into `regs[index]`, a no-op when
out of range (`get_mut` returning `None`). -/
def set_syscall_arg (r : Regs) (index : Nat) (value : Nat) : Regs :=
  { r with gpr := r.gpr.set index value }

/-- aarch64 `stack_pointer`. -/
def stack_pointer (r : Regs) : Nat := r.sp

/-- aarch64 `syscall_path_args`: the static table of path-bearing
argument slots, keyed by the aarch64 syscall numbers the source names
(`openat` 56, `openat2` 437, `statx` 291, `faccessat` 48, `faccessat2`
439, `readlinkat` 78, `execve` 221, `execveat` 281, `mkdirat` 34,
`unlinkat` 35, `symlinkat` 36, `linkat` 37, `renameat` 38, `renameat2`
276, `chdir` 49, `chroot` 51). -/
def syscall_path_args : Nat → List Nat
  | 56 | 437 | 291 | 48 | 439 | 78 | 281 | 34 | 35 => [1]
  | 221 | 49 | 51 => [0]
  | 36 => [2]
  | 37 | 38 | 276 => [1, 3]
  | _ => []

/-! ## Syscall interceptor -/

/-- The observable state of the traced process at one syscall-entry
stop, together with the fallibility oracles of the ptrace channel and a
ghost counter of `set_regs` calls. -/
structure Tracee where
  regs : Regs
  mem : Mem
  readOk : Nat → Bool
  writeOk : Nat → Bool
  stackStart : Option Nat
  getRegsOk : Bool
  setRegsOk : Bool
  setRegsCount : Nat

/-- The mutable state of the per-argument loop of `handle_syscall`. -/
structure LoopSt where
  regs : Regs
  mem : Mem
  stack_start : Option Nat
  scratch_cursor : Nat
  relocated : List Nat

/-- `align_up(n, word_size)`: the source's
`(new_total + word_size - 1) & !(word_size - 1)` with `word_size = 8`. -/
def alignWord (n : Nat) : Nat := ((n + 8 - 1) / 8) * 8

/-- `payload.resize(pad_len, 0)` guarded by `payload.len() < pad_len`. -/
def padPayload (payload : List Nat) (padLen : Nat) : List Nat :=
  if payload.length < padLen then payload ++ List.replicate (padLen - payload.length) 0
  else payload

/-- The bounds check on a carved scratch region: with a known stack
start the carved address must stay at least one word above it; with no
known stack region the check passes. -/
def boundsFail (stack_start : Option Nat) (next_addr : Nat) : Bool :=
  match stack_start with
  | some start => next_addr < start + 8
  | none => false

/-- The body of the `for (arg_index, addr) in arg_addrs` loop of
`handle_syscall`: read the argument string, resolve it, skip no-ops and
unresolvable or unreadable arguments, then either overwrite in place
(padded to the old occupied length) or carve scratch space below the
stack pointer; only a relocation touches the register copy. -/
def rewriteArg (t : Tracee) (binds : List (Str × Str)) (st : LoopSt) (arg : Nat × Nat) :
    Except Unit LoopSt :=
  match read_c_string t.readOk st.mem arg.2 with
  | .error _ => .ok st
  | .ok (path, old_len) =>
    match resolve_bind path binds with
    | none => .ok st
    | some new_path =>
      if new_path = path then .ok st
      else
        let old_total := old_len + 1
        let new_total := new_path.length + 1
        if new_path.length ≤ old_len then
          match write_bytes t.readOk t.writeOk st.mem arg.2 (padPayload (new_path ++ [0]) old_total) with
          | .error e => .error e
          | .ok mem1 => .ok { st with mem := mem1 }
        else
          let stack_start := if st.stack_start.isNone then t.stackStart else st.stack_start
          let aligned := alignWord new_total
          if st.scratch_cursor < aligned then .ok { st with stack_start := stack_start }
          else
            let next_addr := st.scratch_cursor - aligned
            if boundsFail stack_start next_addr then .ok { st with stack_start := stack_start }
            else
              match write_bytes t.readOk t.writeOk st.mem next_addr (new_path ++ [0]) with
              | .error e => .error e
              | .ok mem1 =>
                  if next_addr ≠ arg.2 then
                    .ok { st with
                          mem := mem1
                          stack_start := stack_start
                          scratch_cursor := next_addr
                          regs := set_syscall_arg st.regs arg.1 next_addr
                          relocated := st.relocated ++ [arg.1] }
                  else
                    .ok { st with
                          mem := mem1
                          stack_start := stack_start
                          scratch_cursor := next_addr }

/-- The `for` loop of `handle_syscall` over the collected argument
slots, propagating a write failure and threading the loop state. -/
def runArgs (t : Tracee) (binds : List (Str × Str)) : LoopSt → List (Nat × Nat) →
    Except Unit LoopSt
  | st, [] => .ok st
  | st, a :: rest =>
      match rewriteArg t binds st a with
      | .error e => .error e
      | .ok st1 => runArgs t binds st1 rest

/-- Collection of `(arg_index, addr)` pairs with a non-null pointer. -/
def arg_addrs (r : Regs) (args : List Nat) : List (Nat × Nat) :=
  args.filterMap fun a =>
    let addr := syscall_arg r a
    if addr ≠ 0 then some (a, addr) else none

/-- The initial loop state: register snapshot, live memory, no cached
stack range, scratch cursor at the stack pointer (aarch64: no red-zone
offset), nothing relocated. -/
def initSt (r : Regs) (mem : Mem) : LoopSt :=
  { regs := r, mem := mem, stack_start := none, scratch_cursor := stack_pointer r,
    relocated := [] }

/-- `handle_syscall` from the source: intercept one syscall-entry stop.
The register snapshot is written back (one `set_regs`, counted in the
ghost field) only when at least one argument slot was relocated. -/
def handle_syscall (t : Tracee) (binds : List (Str × Str)) : Except Unit Tracee :=
  if binds = [] then .ok t
  else if t.getRegsOk = false then .error ()
  else
    let args := syscall_path_args (syscall_number t.regs)
    if args = [] then .ok t
    else
      let addrs := arg_addrs t.regs args
      if addrs = [] then .ok t
      else
        match runArgs t binds (initSt t.regs t.mem) addrs with
        | .error e => .error e
        | .ok st =>
            if st.relocated = [] then .ok { t with mem := st.mem }
            else if t.setRegsOk then
              .ok { t with regs := st.regs, mem := st.mem, setRegsCount := t.setRegsCount + 1 }
            else .error ()

/-! ## Trace supervisor -/

/-- One `waitpid` notification, as the supervisor loop observes it.  A
syscall-boundary stop carries the tracee state the interceptor would
find at that stop (the live process state, supplied as an oracle). -/
inductive Ev where
  | exited (code : Int)
  | signaled (sig : Nat)
  | syscallStop (t : Tracee)
  | ptraceEvent
  | continuedEv
  | stopped (sig : Nat)
  | stillAlive
  | waitFail

/-- The post-handshake loop of `trace_loop`: alternate the `in_syscall`
toggle on syscall-boundary stops, intercept on entry stops, forward
other stops, and return the exit code (or `128 + signal`) on a terminal
notification.  `none` means the event list ended with the loop still
waiting. -/
def trace_loop_post (binds : List (Str × Str)) : Bool → List Ev → Option (Except Unit Int)
  | _, [] => none
  | ins, e :: rest =>
      match e with
      | .waitFail => some (.error ())
      | .exited c => some (.ok c)
      | .signaled s => some (.ok (128 + (s : Int)))
      | .syscallStop t =>
          if !ins then
            match handle_syscall t binds with
            | .error _ => some (.error ())
            | .ok _ => trace_loop_post binds (!ins) rest
          else trace_loop_post binds (!ins) rest
      | .ptraceEvent => trace_loop_post binds ins rest
      | .continuedEv => trace_loop_post binds ins rest
      | .stopped _ => trace_loop_post binds ins rest
      | .stillAlive => trace_loop_post binds ins rest

/-- The pre-handshake loop of `trace_loop`: wait for the self-raised
`SIGSTOP` (signal 19), but treat an exit or a fatal signal as terminal
exactly like the main loop does. -/
def trace_loop_pre (binds : List (Str × Str)) : List Ev → Option (Except Unit Int)
  | [] => none
  | e :: rest =>
      match e with
      | .waitFail => some (.error ())
      | .exited c => some (.ok c)
      | .signaled s => some (.ok (128 + (s : Int)))
      | .stopped s => if s = 19 then trace_loop_post binds false rest else trace_loop_pre binds rest
      | .syscallStop _ => trace_loop_pre binds rest
      | .ptraceEvent => trace_loop_pre binds rest
      | .continuedEv => trace_loop_pre binds rest
      | .stillAlive => trace_loop_pre binds rest

/-- `trace_loop` from the source, over an observed event sequence. -/
def trace_loop (binds : List (Str × Str)) (evs : List Ev) : Option (Except Unit Int) :=
  trace_loop_pre binds evs

/-- Events the pre-handshake wait loop passes over without reacting:
everything except an exit, a fatal signal, a wait failure, and the
handshake `SIGSTOP` itself. -/
def preSkipEv : Ev → Bool
  | .exited _ => false
  | .signaled _ => false
  | .waitFail => false
  | .stopped s => s ≠ 19
  | .syscallStop _ => true
  | .ptraceEvent => true
  | .continuedEv => true
  | .stillAlive => true

/-! ## Specification-side predicates for the bind resolver -/

/-- No rule of `l` matches `path`. -/
def NoMatch (path : Str) (l : List (Str × Str)) : Prop :=
  ∀ hg ∈ l, path_suffix path hg.2 = none

/-- Invariant of the selection loop of `resolve_bind` after the rules
`pre` have been examined: either nothing matched yet, or the current
best is a rule of `pre` that matches, beats every earlier rule strictly,
and is at least as long as every match seen so far. -/
def BestInv (path : Str) (pre : List (Str × Str)) : Option (Str × Str) × Str → Prop
  | (none, _) => NoMatch path pre
  | (some cur, s) =>
      path_suffix path cur.2 = some s ∧
      (∃ p1 p2, pre = p1 ++ cur :: p2 ∧
        ∀ hg ∈ p1, ∀ s1, path_suffix path hg.2 = some s1 → hg.2.length < cur.2.length) ∧
      (∀ hg ∈ pre, ∀ s1, path_suffix path hg.2 = some s1 → hg.2.length ≤ cur.2.length)

/-! ## Concrete fixtures -/

/-- Registers at an `openat` entry stop: syscall number 56 in `x8`, the
path argument pointer `1000` in `x1`, stack pointer `500000`. -/
def regs0 : Regs := { gpr := ((List.replicate 31 0).set 8 56).set 1 1000, sp := 500000 }

/-- Guest path `"/g/x"` stored at address 1000. -/
def mem0 : Mem := memOfList 1000 (bytesOf "/g/x")

def binds0 : List (Str × Str) := [(bytesOf "/h", bytesOf "/g")]

/-- A fully healthy tracee at the `openat` stop. -/
def tOK : Tracee :=
  { regs := regs0, mem := mem0, readOk := allOk, writeOk := allOk, stackStart := some 400000
    getRegsOk := true, setRegsOk := true, setRegsCount := 0 }

/-- Same stop, but every remote write fails. -/
def tWF : Tracee := { tOK with writeOk := fun _ => false }

/-- Same stop, but the remote read of the argument string fails. -/
def tRF : Tracee := { tOK with readOk := fun a => decide (a ≠ 1000) }

/-- An idle tracee: syscall number 0, no path-bearing arguments. -/
def tIdle : Tracee :=
  { regs := { gpr := List.replicate 31 0, sp := 0 }, mem := fun _ => 0, readOk := allOk
    writeOk := allOk, stackStart := none, getRegsOk := true, setRegsOk := true
    setRegsCount := 0 }

/-- A rule whose host side is much longer than the guest side, forcing
the scratch-relocation path. -/
def bindsL : List (Str × Str) := [(bytesOf "/very/long/host/dir", bytesOf "/g")]

/-- A rule that maps a guest prefix to itself, producing a no-op
rewrite. -/
def bindsId : List (Str × Str) := [(bytesOf "/g", bytesOf "/g")]

/-- Registers with an implausibly small stack pointer, making the
scratch carve underflow. -/
def regsTiny : Regs := { regs0 with sp := 8 }

def tTiny : Tracee := { tOK with regs := regsTiny }

/-- Expected memory after the in-place rewrite of `"/g/x"` to `"/h/x"`
at 1000: one spliced word write. -/
def memC5 : Mem := writeWord mem0 1000 [47, 104, 47, 120, 0, 0, 0, 0]

/-- A constant background memory for the `write_bytes` witness. -/
def memBase : Mem := fun _ => 55

/-- Expected memory after writing `[1, 2, 3]` at 100 over `memBase`:
one spliced word write. -/
def memC8 : Mem := writeWord memBase 100 [1, 2, 3, 55, 55, 55, 55, 55]

def pathEx : Str := bytesOf "/guest/app/bin"

def bindsEx : List (Str × Str) :=
  [(bytesOf "/a", bytesOf "/guest"), (bytesOf "/b", bytesOf "/guest/app")]

/-! ## Lemmas about the bind resolver -/

theorem selectBest_inv (path : Str) :
    ∀ (rest pre : List (Str × Str)) (st : Option (Str × Str) × Str),
      BestInv path pre st → BestInv path (pre ++ rest) (selectBest path rest st) := by
  intro rest
  induction rest with
  | nil => intro pre st h; simpa [selectBest] using h
  | cons hg rest ih =>
      intro pre st h
      rcases st with ⟨b, s⟩
      rcases hmatch : path_suffix path hg.2 with _ | suf
      · have step : BestInv path (pre ++ [hg]) (b, s) := by
          cases b with
          | none =>
              simp only [BestInv, NoMatch] at h ⊢
              intro x hx
              rcases List.mem_append.1 hx with hx | hx
              · exact h x hx
              · rw [List.mem_singleton.1 hx]; exact hmatch
          | some cur =>
              obtain ⟨hcur, ⟨p1, p2, hpre, hp1⟩, hall⟩ := h
              refine ⟨hcur, ⟨p1, p2 ++ [hg], by rw [hpre]; simp, hp1⟩, ?_⟩
              intro x hx s1 hs1
              rcases List.mem_append.1 hx with hx | hx
              · exact hall x hx s1 hs1
              · rw [List.mem_singleton.1 hx] at hs1; rw [hmatch] at hs1; cases hs1
        have := ih (pre ++ [hg]) (b, s) step
        rw [List.append_assoc] at this
        simpa [selectBest, hmatch] using this
      · cases b with
        | none =>
            have step : BestInv path (pre ++ [hg]) (some hg, suf) := by
              simp only [BestInv, NoMatch] at h ⊢
              refine ⟨hmatch, ⟨pre, [], by simp, ?_⟩, ?_⟩
              · intro x hx s1 hs1; rw [h x hx] at hs1; cases hs1
              · intro x hx s1 hs1
                rcases List.mem_append.1 hx with hx | hx
                · rw [h x hx] at hs1; cases hs1
                · rw [List.mem_singleton.1 hx]
            have := ih (pre ++ [hg]) (some hg, suf) step
            rw [List.append_assoc] at this
            simpa [selectBest, hmatch] using this
        | some cur =>
            obtain ⟨hcur, ⟨p1, p2, hpre, hp1⟩, hall⟩ := h
            by_cases hlen : cur.2.length < hg.2.length
            · have step : BestInv path (pre ++ [hg]) (some hg, suf) := by
                refine ⟨hmatch, ⟨pre, [], by simp, ?_⟩, ?_⟩
                · intro x hx s1 hs1
                  exact Nat.lt_of_le_of_lt (hall x hx s1 hs1) hlen
                · intro x hx s1 hs1
                  rcases List.mem_append.1 hx with hx | hx
                  · exact Nat.le_of_lt (Nat.lt_of_le_of_lt (hall x hx s1 hs1) hlen)
                  · rw [List.mem_singleton.1 hx]
              have := ih (pre ++ [hg]) (some hg, suf) step
              rw [List.append_assoc] at this
              simpa [selectBest, hmatch, hlen] using this
            · have step : BestInv path (pre ++ [hg]) (some cur, s) := by
                refine ⟨hcur, ⟨p1, p2 ++ [hg], by rw [hpre]; simp, hp1⟩, ?_⟩
                intro x hx s1 hs1
                rcases List.mem_append.1 hx with hx | hx
                · exact hall x hx s1 hs1
                · rw [List.mem_singleton.1 hx] at hs1 ⊢
                  exact Nat.le_of_not_lt hlen
              have := ih (pre ++ [hg]) (some cur, s) step
              rw [List.append_assoc] at this
              simpa [selectBest, hmatch, hlen] using this

theorem resolve_bind_inv (path : Str) (binds : List (Str × Str)) :
    BestInv path binds (selectBest path binds (none, [])) := by
  have h0 : BestInv path [] ((none : Option (Str × Str)), ([] : Str)) := by
    simp [BestInv, NoMatch]
  simpa using selectBest_inv path binds [] (none, []) h0

theorem resolve_bind_none_of_no_match (path : Str) (binds : List (Str × Str))
    (h : NoMatch path binds) : resolve_bind path binds = none := by
  rcases hsel : selectBest path binds (none, []) with ⟨b, s⟩
  cases b with
  | none => unfold resolve_bind; rw [hsel]
  | some cur =>
      have inv := resolve_bind_inv path binds
      rw [hsel] at inv
      obtain ⟨hcur, ⟨p1, p2, hpre, _⟩, _⟩ := inv
      have hmem : cur ∈ binds := by rw [hpre]; simp
      rw [h cur hmem] at hcur
      cases hcur

theorem resolve_bind_spec (path : Str) (binds : List (Str × Str))
    (h : ∃ hg ∈ binds, ∃ s, path_suffix path hg.2 = some s) :
    ∃ p1 cur p2 suf, binds = p1 ++ cur :: p2 ∧
      path_suffix path cur.2 = some suf ∧
      resolve_bind path binds = some (joinHost cur.1 suf) ∧
      (∀ hg ∈ p1, ∀ s, path_suffix path hg.2 = some s → hg.2.length < cur.2.length) ∧
      (∀ hg ∈ binds, ∀ s, path_suffix path hg.2 = some s → hg.2.length ≤ cur.2.length) := by
  rcases hsel : selectBest path binds (none, []) with ⟨b, s⟩
  have inv := resolve_bind_inv path binds
  rw [hsel] at inv
  cases b with
  | none =>
      obtain ⟨hg, hmem, s1, hs1⟩ := h
      rw [inv hg hmem] at hs1
      cases hs1
  | some cur =>
      obtain ⟨hcur, ⟨p1, p2, hpre, hp1⟩, hall⟩ := inv
      refine ⟨p1, cur, p2, s, hpre, hcur, ?_, hp1, hall⟩
      unfold resolve_bind
      rw [hsel]

/-- Unfolding step of the fuelled `write_bytes` loop on a nonempty
byte list. -/
theorem wbGo_succ_cons_eq (rok wok : Nat → Bool) (fuel : Nat) (mem : Mem) (addr b : Nat)
    (bs : List Nat) :
    wbGo rok wok (fuel + 1) mem addr (b :: bs) =
      match spliceWord rok mem addr (b :: bs) with
      | .error e => .error e
      | .ok word =>
          if wok addr then
            wbGo rok wok fuel (writeWord mem addr word) (addr + 8) ((b :: bs).drop 8)
          else .error () := rfl

theorem wbGo_nil (rok wok : Nat → Bool) (fuel : Nat) (mem : Mem) (addr : Nat) :
    wbGo rok wok fuel mem addr [] = .ok mem := by
  cases fuel <;> rfl

theorem spliceWord_small (rok : Nat → Bool) (mem : Mem) (addr : Nat) (bytes : List Nat)
    (h : min 8 bytes.length < 8) (hrok : rok addr = true) :
    spliceWord rok mem addr bytes =
      .ok (bytes.take 8 ++ (((List.range 8).map fun i => mem (addr + i)).drop
        (min 8 bytes.length))) := by
  unfold spliceWord readWord
  rw [if_pos h, hrok]
  simp

theorem spliceWord_small_err (rok : Nat → Bool) (mem : Mem) (addr : Nat) (bytes : List Nat)
    (h : min 8 bytes.length < 8) (hrok : rok addr = false) :
    spliceWord rok mem addr bytes = .error () := by
  unfold spliceWord readWord
  rw [if_pos h, hrok]
  simp

theorem spliceWord_big (rok : Nat → Bool) (mem : Mem) (addr : Nat) (bytes : List Nat)
    (h : ¬ min 8 bytes.length < 8) :
    spliceWord rok mem addr bytes = .ok (bytes.take 8) := by
  unfold spliceWord
  rw [if_neg h]

theorem getD_take_eq (l : List Nat) (n i : Nat) (h : i < n) :
    (l.take n).getD i 0 = l.getD i 0 := by
  simp [List.getD_eq_getElem?_getD, List.getElem?_take, h]

theorem getD_drop_eq (l : List Nat) (n i : Nat) :
    (l.drop n).getD i 0 = l.getD (n + i) 0 := by
  simp [List.getD_eq_getElem?_getD, List.getElem?_drop]

theorem getD_range_map (f : Nat → Nat) (i : Nat) (h : i < 8) :
    ((List.range 8).map f).getD i 0 = f i := by
  simp [List.getD_eq_getElem?_getD, List.getElem?_map, List.getElem?_range h]

/-- Characterisation of the fuelled `write_bytes` loop: on success the
new memory holds exactly `bytes` on `[addr, addr + bytes.length)` and is
unchanged everywhere else (in particular on the tail of a final partial
word, which is read back and spliced). -/
theorem wbGo_spec (rok wok : Nat → Bool) :
    ∀ (fuel : Nat) (bytes : List Nat) (mem mem1 : Mem) (addr : Nat),
      bytes.length ≤ fuel →
      wbGo rok wok fuel mem addr bytes = .ok mem1 →
      ∀ x, mem1 x =
        if addr ≤ x ∧ x < addr + bytes.length then bytes.getD (x - addr) 0 else mem x := by
  intro fuel
  induction fuel with
  | zero =>
      intro bytes mem mem1 addr hlen hok x
      have hb : bytes = [] := List.eq_nil_of_length_eq_zero (Nat.le_zero.1 hlen)
      subst hb
      rw [wbGo_nil] at hok
      cases hok
      simp only [List.length_nil, Nat.add_zero]
      rw [if_neg (by omega)]
  | succ fuel ih =>
      intro bytes mem mem1 addr hlen hok x
      cases bytes with
      | nil =>
          rw [wbGo_nil] at hok
          cases hok
          simp only [List.length_nil, Nat.add_zero]
          rw [if_neg (by omega)]
      | cons b bs =>
          rw [wbGo_succ_cons_eq] at hok
          by_cases h8 : (b :: bs).length < 8
          · cases hrok : rok addr with
            | false =>
                rw [spliceWord_small_err rok mem addr (b :: bs) (by omega) hrok] at hok
                simp at hok
            | true =>
                rw [spliceWord_small rok mem addr (b :: bs) (by omega) hrok] at hok
                simp only [] at hok
                cases hwok : wok addr with
                | false => rw [hwok] at hok; simp at hok
                | true =>
                    rw [hwok] at hok
                    simp only [reduceIte] at hok
                    rw [List.drop_eq_nil_of_le (show (b :: bs).length ≤ 8 by omega)] at hok
                    rw [wbGo_nil] at hok
                    cases hok
                    simp only [writeWord]
                    by_cases hx : addr ≤ x ∧ x < addr + 8
                    · rw [if_pos hx]
                      by_cases hi : x - addr < (b :: bs).length
                      · rw [if_pos (show addr ≤ x ∧ x < addr + (b :: bs).length by omega)]
                        rw [List.getD_append _ _ _ _ (by
                          rw [List.length_take]
                          omega)]
                        exact getD_take_eq _ _ _ (by omega)
                      · rw [if_neg (by omega)]
                        rw [List.getD_append_right _ _ _ _ (by
                          rw [List.length_take]
                          omega)]
                        rw [List.length_take]
                        rw [getD_drop_eq, getD_range_map _ _ (by omega)]
                        congr 1
                        omega
                    · rw [if_neg hx, if_neg (by omega)]
          · rw [spliceWord_big rok mem addr (b :: bs) (by omega)] at hok
            simp only [] at hok
            cases hwok : wok addr with
            | false => rw [hwok] at hok; simp at hok
            | true =>
                rw [hwok] at hok
                simp only [reduceIte] at hok
                have hlen2 : ((b :: bs).drop 8).length ≤ fuel := by
                  rw [List.length_drop]
                  omega
                have hx1 := ih _ _ _ _ hlen2 hok x
                rw [List.length_drop] at hx1
                by_cases hmid : addr + 8 ≤ x ∧ x < addr + 8 + ((b :: bs).length - 8)
                · rw [if_pos hmid] at hx1
                  rw [hx1, getD_drop_eq,
                    if_pos (show addr ≤ x ∧ x < addr + (b :: bs).length by omega)]
                  congr 1
                  omega
                · rw [if_neg hmid] at hx1
                  rw [hx1]
                  simp only [writeWord]
                  by_cases hw : addr ≤ x ∧ x < addr + 8
                  · rw [if_pos hw,
                      if_pos (show addr ≤ x ∧ x < addr + (b :: bs).length by omega)]
                    exact getD_take_eq _ _ _ (by omega)
                  · rw [if_neg hw, if_neg (by omega)]

/-- Characterisation of `write_bytes` (success case). -/
theorem write_bytes_spec (rok wok : Nat → Bool) (mem mem1 : Mem) (addr : Nat) (bytes : List Nat)
    (hok : write_bytes rok wok mem addr bytes = .ok mem1) :
    ∀ x, mem1 x =
      if addr ≤ x ∧ x < addr + bytes.length then bytes.getD (x - addr) 0 else mem x :=
  wbGo_spec rok wok bytes.length bytes mem mem1 addr (Nat.le_refl _) hok

/-- Unfolding step of the fuelled `read_c_string` loop. -/
theorem rcGo_succ_eq (rok : Nat → Bool) (mem : Mem) (addr fuel offset : Nat) (acc : List Nat) :
    rcGo rok mem addr (fuel + 1) offset acc =
      match readWord rok mem (addr + offset) with
      | .error e => .error e
      | .ok word =>
          match word.findIdx? (fun b => b = 0) with
          | some i => .ok (acc ++ word.take i, (acc ++ word.take i).length)
          | none => rcGo rok mem addr fuel (offset + 8) (acc ++ word) := rfl

/-- A failing first word read makes `read_c_string` fail. -/
theorem read_c_string_error_of_readOk_false (rok : Nat → Bool) (mem : Mem) (addr : Nat)
    (h : rok addr = false) : read_c_string rok mem addr = .error () := by
  unfold read_c_string
  rw [show MAX_PATH / 8 = 511 + 1 from rfl, rcGo_succ_eq]
  simp [readWord, h]

/-- The pre-handshake loop passes over a non-terminal, non-handshake
notification. -/
theorem trace_loop_pre_skip (binds : List (Str × Str)) (e : Ev) (evs : List Ev)
    (he : preSkipEv e = true) :
    trace_loop_pre binds (e :: evs) = trace_loop_pre binds evs := by
  cases e with
  | exited c => simp [preSkipEv] at he
  | signaled s => simp [preSkipEv] at he
  | waitFail => simp [preSkipEv] at he
  | stopped s =>
      have hs : ¬ s = 19 := by simpa [preSkipEv] using he
      simp [trace_loop_pre, hs]
  | syscallStop t => rfl
  | ptraceEvent => rfl
  | continuedEv => rfl
  | stillAlive => rfl

/-! ## Lemmas about the syscall interceptor -/

theorem resolve_bind_nil (path : Str) : resolve_bind path [] = none := rfl

theorem padPayload_length (p : List Nat) (n : Nat) :
    (padPayload p n).length = max p.length n := by
  unfold padPayload
  by_cases h : p.length < n
  · rw [if_pos h]
    simp only [List.length_append, List.length_replicate]
    omega
  · rw [if_neg h]
    omega

theorem padPayload_getD_lt (p : List Nat) (n i : Nat) (h : i < p.length) :
    (padPayload p n).getD i 0 = p.getD i 0 := by
  unfold padPayload
  by_cases hlt : p.length < n
  · rw [if_pos hlt, List.getD_append _ _ _ _ h]
  · rw [if_neg hlt]

theorem padPayload_getD_ge (p : List Nat) (n i : Nat) (h1 : p.length ≤ i) (h2 : i < n) :
    (padPayload p n).getD i 0 = 0 := by
  unfold padPayload
  rw [if_pos (by omega), List.getD_append_right _ _ _ _ h1]
  rw [List.getD_eq_getElem?_getD, List.getElem?_replicate]
  split <;> rfl

theorem rewriteArg_nil_binds (t : Tracee) (st : LoopSt) (a : Nat × Nat) :
    rewriteArg t [] st a = .ok st := by
  unfold rewriteArg
  cases h : read_c_string t.readOk st.mem a.2 with
  | error e => rfl
  | ok pr => simp [resolve_bind_nil]

theorem runArgs_nil_binds (t : Tracee) (st : LoopSt) (l : List (Nat × Nat)) :
    runArgs t [] st l = .ok st := by
  induction l generalizing st with
  | nil => rfl
  | cons a rest ih =>
      unfold runArgs
      rw [rewriteArg_nil_binds]
      exact ih st

theorem arg_addrs_nil (r : Regs) : arg_addrs r [] = [] := rfl

/-! ## Claim theorems -/

/-- C1: whenever some rule matches `path` under segment-respecting
prefix matching, `resolve_bind` selects the matching rule with the
longest guest prefix — every match strictly earlier in the list is
strictly shorter, every match anywhere is no longer — and returns its
host prefix joined with the matched suffix; in particular, on the rules
`("/a", "/guest"), ("/b", "/guest/app")` the path `"/guest/app/bin"`
resolves to `"/b/bin"` and never to `"/a/app/bin"`. -/
theorem resolve_bind_selects_longest_earliest :
    (∀ (path : Str) (binds : List (Str × Str)),
        (∃ hg ∈ binds, ∃ s, path_suffix path hg.2 = some s) →
        (resolve_bind path binds).isSome = true ∧
        ∃ p1 cur p2 suf, binds = p1 ++ cur :: p2 ∧
          path_suffix path cur.2 = some suf ∧
          resolve_bind path binds = some (joinHost cur.1 suf) ∧
          (∀ hg ∈ p1, ∀ s, path_suffix path hg.2 = some s → hg.2.length < cur.2.length) ∧
          (∀ hg ∈ binds, ∀ s, path_suffix path hg.2 = some s → hg.2.length ≤ cur.2.length)) ∧
    resolve_bind pathEx bindsEx = some (bytesOf "/b/bin") ∧
    resolve_bind pathEx bindsEx ≠ some (bytesOf "/a/app/bin") := by
  refine ⟨?_, by decide, by decide⟩
  intro path binds h
  obtain ⟨p1, cur, p2, suf, h1, h2, h3, h4, h5⟩ := resolve_bind_spec path binds h
  exact ⟨by rw [h3]; rfl, p1, cur, p2, suf, h1, h2, h3, h4, h5⟩

theorem resolve_bind_selects_longest_earliest_witness :
    (resolve_bind pathEx bindsEx).isSome = true :=
  (resolve_bind_selects_longest_earliest.1 pathEx bindsEx
    ⟨(bytesOf "/b", bytesOf "/guest/app"), by decide, bytesOf "/bin", by decide⟩).1

/-- C2: any terminal notification observed by the supervisor loop —
normal exit with code `c`, or death by signal `s` — immediately yields
`Ok c` respectively `Ok (128 + s)`, at every point of both phases of
the loop. -/
theorem trace_loop_terminal_exit_codes (binds : List (Str × Str)) (ins : Bool) (evs : List Ev)
    (c : Int) (s : Nat) :
    trace_loop_post binds ins (.exited c :: evs) = some (.ok c) ∧
    trace_loop_post binds ins (.signaled s :: evs) = some (.ok (128 + (s : Int))) ∧
    trace_loop_pre binds (.exited c :: evs) = some (.ok c) ∧
    trace_loop_pre binds (.signaled s :: evs) = some (.ok (128 + (s : Int))) :=
  ⟨rfl, rfl, rfl, rfl⟩

/-- C3 counterexample: `resolve_bind` itself does not suppress no-op
rewrites — on the identity rule it returns `Some` of the input, not
`None`. -/
theorem resolve_bind_noop_counterexample :
    resolve_bind (bytesOf "/g/x") bindsId = some (bytesOf "/g/x") := by decide

/-- C3 amended: `resolve_bind` returns `None` when no rule matches; the
no-op suppression for a reconstructed path identical to the input is
performed by the caller, `handle_syscall`, whose per-argument step skips
the rewrite (leaving the loop state untouched) when the resolved path
equals the original. -/
theorem resolve_bind_none_and_caller_noop_skip :
    (∀ (path : Str) (binds : List (Str × Str)),
        NoMatch path binds → resolve_bind path binds = none) ∧
    (∀ (t : Tracee) (binds : List (Str × Str)) (st : LoopSt) (i addr : Nat) (path : Str)
        (old_len : Nat),
        read_c_string t.readOk st.mem addr = .ok (path, old_len) →
        resolve_bind path binds = some path →
        rewriteArg t binds st (i, addr) = .ok st) := by
  refine ⟨resolve_bind_none_of_no_match, ?_⟩
  intro t binds st i addr path old_len hread hres
  simp [rewriteArg, hread, hres]

theorem resolve_bind_none_and_caller_noop_skip_witness :
    resolve_bind (bytesOf "/z") bindsId = none ∧
    rewriteArg tOK bindsId (initSt regs0 mem0) (1, 1000) = .ok (initSt regs0 mem0) :=
  ⟨resolve_bind_none_and_caller_noop_skip.1 (bytesOf "/z") bindsId (by unfold NoMatch; decide),
   resolve_bind_none_and_caller_noop_skip.2 tOK bindsId (initSt regs0 mem0) 1 1000
     (bytesOf "/g/x") 4 rfl (by decide)⟩

/-- C4 counterexample: at this concrete syscall-entry stop the remote
write of the rewritten argument fails; `handle_syscall` propagates the
failure and the trace loop aborts with an error — so a Remote Memory
Access failure for a single argument can abort the loop, contrary to
the claim. -/
theorem remote_write_failure_aborts_loop_counterexample :
    handle_syscall tWF binds0 = .error () ∧
    trace_loop binds0 [Ev.stopped 19, Ev.syscallStop tWF] = some (.error ()) :=
  ⟨rfl, rfl⟩

/-- C4 amended: a failing remote *read* for one argument is recovered
locally — that argument is skipped with the loop state unchanged,
`handle_syscall` succeeds and the trace loop continues — whereas a
failing remote *write* propagates out of the stop handler and aborts
the trace loop. -/
theorem read_failure_skips_write_failure_aborts :
    (∀ (t : Tracee) (binds : List (Str × Str)) (st : LoopSt) (i addr : Nat),
        t.readOk addr = false → rewriteArg t binds st (i, addr) = .ok st) ∧
    handle_syscall tRF binds0 = .ok tRF ∧
    trace_loop_post binds0 false [Ev.syscallStop tRF, Ev.exited 0] = some (.ok 0) ∧
    handle_syscall tWF binds0 = .error () := by
  refine ⟨?_, rfl, rfl, rfl⟩
  intro t binds st i addr h
  have hr := read_c_string_error_of_readOk_false t.readOk st.mem addr h
  simp [rewriteArg, hr]

theorem read_failure_skips_write_failure_aborts_witness :
    rewriteArg tRF binds0 (initSt regs0 mem0) (1, 1000) = .ok (initSt regs0 mem0) :=
  read_failure_skips_write_failure_aborts.1 tRF binds0 (initSt regs0 mem0) 1 1000 rfl

/-- C7: when no rule's guest prefix is a segment-respecting prefix of
the path, `resolve_bind` returns `None`; a guest prefix ending
mid-segment never matches, and a rule with an empty guest path never
matches any path. -/
theorem no_match_resolves_none :
    (∀ (path : Str) (binds : List (Str × Str)),
        NoMatch path binds → resolve_bind path binds = none) ∧
    resolve_bind (bytesOf "/guestroom/x") [(bytesOf "/h", bytesOf "/guest")] = none ∧
    (∀ p : Str, path_suffix p [] = none) ∧
    (∀ p h : Str, resolve_bind p [(h, ([] : Str))] = none) := by
  refine ⟨resolve_bind_none_of_no_match, by decide, fun p => rfl, ?_⟩
  intro p h
  refine resolve_bind_none_of_no_match p [(h, [])] ?_
  intro hg hmem
  rw [List.mem_singleton.1 hmem]
  rfl

theorem no_match_resolves_none_witness :
    resolve_bind (bytesOf "/nope") binds0 = none :=
  no_match_resolves_none.1 (bytesOf "/nope") binds0 (by unfold NoMatch; decide)

/-- C10: if the child terminates before the handshake `SIGSTOP` is ever
observed, the pre-handshake wait loop treats the termination as
terminal and returns the exit code (or `128 + signal`) just as the main
loop would, for any prefix of notifications the pre-handshake loop
passes over. -/
theorem pre_handshake_termination (binds : List (Str × Str)) (pre evs : List Ev) (c : Int)
    (s : Nat) (h : ∀ e ∈ pre, preSkipEv e = true) :
    trace_loop binds (pre ++ .exited c :: evs) = some (.ok c) ∧
    trace_loop binds (pre ++ .signaled s :: evs) = some (.ok (128 + (s : Int))) := by
  induction pre with
  | nil => exact ⟨rfl, rfl⟩
  | cons e rest ih =>
      obtain ⟨ih1, ih2⟩ := ih (fun x hx => h x (List.mem_cons_of_mem e hx))
      have he := h e (List.mem_cons_self e rest)
      constructor
      · show trace_loop_pre binds ((e :: rest) ++ Ev.exited c :: evs) = _
        rw [List.cons_append, trace_loop_pre_skip binds e _ he]
        exact ih1
      · show trace_loop_pre binds ((e :: rest) ++ Ev.signaled s :: evs) = _
        rw [List.cons_append, trace_loop_pre_skip binds e _ he]
        exact ih2

theorem pre_handshake_termination_witness :
    trace_loop binds0 ([Ev.stillAlive, Ev.stopped 17] ++ Ev.exited 0 :: []) = some (.ok 0) :=
  (pre_handshake_termination binds0 [Ev.stillAlive, Ev.stopped 17] [] 0 9 (by
    intro e he
    rcases List.mem_cons.1 he with h1 | h1
    · rw [h1]; rfl
    · rw [List.mem_singleton.1 h1]; rfl)).1

/-- C5: an in-place rewrite (resolved path no longer than the original)
writes, at the original address, the new string plus NUL terminator,
zero-padded up to the old encoded length, so no stale byte of the
original string survives past the new terminator; memory outside the
old occupied span and the register state are untouched. -/
theorem inplace_rewrite_padded (t : Tracee) (binds : List (Str × Str)) (st : LoopSt)
    (i addr : Nat) (path new_path : Str) (old_len : Nat) (mem1 : Mem)
    (hread : read_c_string t.readOk st.mem addr = .ok (path, old_len))
    (hres : resolve_bind path binds = some new_path)
    (hne : new_path ≠ path)
    (hfit : new_path.length ≤ old_len)
    (hw : write_bytes t.readOk t.writeOk st.mem addr
        (padPayload (new_path ++ [0]) (old_len + 1)) = .ok mem1) :
    rewriteArg t binds st (i, addr) = .ok { st with mem := mem1 } ∧
    (∀ k, k < new_path.length → mem1 (addr + k) = new_path.getD k 0) ∧
    (∀ k, new_path.length ≤ k → k < old_len + 1 → mem1 (addr + k) = 0) ∧
    (∀ x, x < addr ∨ addr + (old_len + 1) ≤ x → mem1 x = st.mem x) := by
  have hplen : (padPayload (new_path ++ [0]) (old_len + 1)).length = old_len + 1 := by
    rw [padPayload_length]
    simp only [List.length_append, List.length_cons, List.length_nil]
    omega
  have hs := write_bytes_spec _ _ _ _ _ _ hw
  refine ⟨?_, ?_, ?_, ?_⟩
  · simp [rewriteArg, hread, hres, hne, hfit, hw]
  · intro k hk
    rw [hs (addr + k), hplen, if_pos (by omega)]
    have hkk : addr + k - addr = k := by omega
    rw [hkk, padPayload_getD_lt _ _ _ (by simp; omega)]
    rw [List.getD_append _ _ _ _ hk]
  · intro k hk1 hk2
    rw [hs (addr + k), hplen, if_pos (by omega)]
    have hkk : addr + k - addr = k := by omega
    rw [hkk]
    by_cases hk3 : k = new_path.length
    · subst hk3
      rw [padPayload_getD_lt _ _ _ (by simp)]
      rw [List.getD_append_right _ _ _ _ (Nat.le_refl _)]
      simp
    · rw [padPayload_getD_ge _ _ _ (by simp; omega) (by omega)]
  · intro x hx
    rw [hs x, hplen, if_neg (by omega)]

theorem inplace_rewrite_padded_witness :
    rewriteArg tOK binds0 (initSt regs0 mem0) (1, 1000) =
      .ok { initSt regs0 mem0 with mem := memC5 } ∧
    memC5 (1000 + 4) = 0 ∧ memC5 (1000 + 1) = (bytesOf "/h/x").getD 1 0 := by
  have h := inplace_rewrite_padded tOK binds0 (initSt regs0 mem0) 1 1000 (bytesOf "/g/x")
    (bytesOf "/h/x") 4 memC5 rfl (by decide) (by decide) (by decide) rfl
  exact ⟨h.1, h.2.2.1 4 (by decide) (by decide), h.2.1 1 (by decide)⟩

/-- C6: an oversized rewrite carves `align_up(new_len + 1, 8)` bytes
downward from the scratch cursor; if that subtraction underflows, or a
known stack start makes the carved region fall below the stack's lowest
mapped address, the argument's rewrite is silently skipped — memory,
registers, scratch cursor and relocation record are all unchanged (only
the lazily queried stack-start cache may be filled in), and no error is
raised. -/
theorem oversized_rewrite_bounds_skip (t : Tracee) (binds : List (Str × Str)) (st : LoopSt)
    (i addr : Nat) (path new_path : Str) (old_len : Nat)
    (hread : read_c_string t.readOk st.mem addr = .ok (path, old_len))
    (hres : resolve_bind path binds = some new_path)
    (hne : new_path ≠ path)
    (hbig : old_len < new_path.length)
    (htrig : st.scratch_cursor < alignWord (new_path.length + 1) ∨
        (alignWord (new_path.length + 1) ≤ st.scratch_cursor ∧
         ∃ s, (if st.stack_start.isNone then t.stackStart else st.stack_start) = some s ∧
           st.scratch_cursor - alignWord (new_path.length + 1) < s)) :
    rewriteArg t binds st (i, addr) =
      .ok { st with
            stack_start := if st.stack_start.isNone then t.stackStart else st.stack_start } := by
  have hnle : ¬ new_path.length ≤ old_len := Nat.not_le.2 hbig
  rcases htrig with h1 | ⟨h2, s, hss, h3⟩
  · simp [rewriteArg, hread, hres, hne, hnle, h1]
  · have hnot1 : ¬ st.scratch_cursor < alignWord (new_path.length + 1) := Nat.not_lt.2 h2
    have hlt : st.scratch_cursor - alignWord (new_path.length + 1) < s + 8 := by omega
    cases hcache : st.stack_start with
    | none =>
        rw [hcache] at hss
        simp only [Option.isNone_none, if_pos] at hss
        simp [rewriteArg, hread, hres, hne, hnle, hnot1, hcache, hss, boundsFail, hlt]
    | some v =>
        rw [hcache] at hss
        simp only [Option.isNone_some, Bool.false_eq_true, if_neg] at hss
        cases hss
        simp [rewriteArg, hread, hres, hne, hnle, hnot1, hcache, boundsFail, hlt]

theorem oversized_rewrite_bounds_skip_witness :
    rewriteArg tTiny bindsL (initSt regsTiny mem0) (1, 1000) =
      .ok { initSt regsTiny mem0 with
            stack_start := if (initSt regsTiny mem0).stack_start.isNone then tTiny.stackStart
                           else (initSt regsTiny mem0).stack_start } :=
  oversized_rewrite_bounds_skip tTiny bindsL (initSt regsTiny mem0) 1 1000 (bytesOf "/g/x")
    (bytesOf "/very/long/host/dir/x") 4 rfl (by decide) (by decide) (by decide)
    (Or.inl (by decide))

/-- C8: `write_bytes` stores exactly the given bytes at the target
address; when the byte count is not a multiple of the word size, the
trailing bytes of the final written word — and all memory outside the
written span — keep their prior values, thanks to the read-back splice. -/
theorem write_bytes_partial_word_preserves_tail (rok wok : Nat → Bool) (mem mem1 : Mem)
    (addr : Nat) (bytes : List Nat)
    (hok : write_bytes rok wok mem addr bytes = .ok mem1)
    (_hmod8 : bytes.length % 8 ≠ 0) :
    (∀ i, i < bytes.length → mem1 (addr + i) = bytes.getD i 0) ∧
    (∀ j, bytes.length ≤ j → j < 8 * ((bytes.length + 7) / 8) →
      mem1 (addr + j) = mem (addr + j)) ∧
    (∀ x, x < addr ∨ addr + bytes.length ≤ x → mem1 x = mem x) := by
  have hs := write_bytes_spec rok wok mem mem1 addr bytes hok
  refine ⟨?_, ?_, ?_⟩
  · intro i hi
    rw [hs (addr + i), if_pos (by omega)]
    congr 1
    omega
  · intro j hj1 hj2
    rw [hs (addr + j), if_neg (by omega)]
  · intro x hx
    rw [hs x, if_neg (by omega)]

theorem write_bytes_partial_word_preserves_tail_witness :
    memC8 (100 + 1) = [1, 2, 3].getD 1 0 ∧ memC8 (100 + 5) = memBase (100 + 5) ∧
    memC8 99 = memBase 99 := by
  have h := write_bytes_partial_word_preserves_tail allOk allOk memBase memC8 100 [1, 2, 3]
    rfl (by decide)
  exact ⟨h.1 1 (by decide), h.2.1 5 (by decide) (by decide), h.2.2 99 (Or.inl (by decide))⟩

/-- C9: on a successfully handled syscall-entry stop the register
snapshot is written back at most once; it is written back (as one whole
snapshot) exactly when the argument loop relocated at least one slot,
and a stop whose rewrites were all in-place (or skipped) leaves the
ghost `set_regs` counter and the register state untouched. -/
theorem set_regs_at_most_once (t : Tracee) (binds : List (Str × Str)) (t1 : Tracee)
    (h : handle_syscall t binds = .ok t1) :
    t1.setRegsCount ≤ t.setRegsCount + 1 ∧
    (∀ st, runArgs t binds (initSt t.regs t.mem)
        (arg_addrs t.regs (syscall_path_args (syscall_number t.regs))) = .ok st →
      (st.relocated = [] → t1.setRegsCount = t.setRegsCount ∧ t1.regs = t.regs) ∧
      (st.relocated ≠ [] → t1.setRegsCount = t.setRegsCount + 1 ∧ t1.regs = st.regs)) := by
  unfold handle_syscall at h
  by_cases hb : binds = []
  · rw [if_pos hb] at h
    cases h
    subst hb
    refine ⟨by omega, ?_⟩
    intro st hst
    rw [runArgs_nil_binds] at hst
    cases hst
    exact ⟨fun _ => ⟨rfl, rfl⟩, fun hne => absurd rfl hne⟩
  · rw [if_neg hb] at h
    by_cases hg : t.getRegsOk = false
    · rw [if_pos hg] at h
      cases h
    · rw [if_neg hg] at h
      by_cases ha : syscall_path_args (syscall_number t.regs) = []
      · rw [if_pos ha] at h
        cases h
        refine ⟨by omega, ?_⟩
        intro st hst
        rw [ha, arg_addrs_nil] at hst
        cases hst
        exact ⟨fun _ => ⟨rfl, rfl⟩, fun hne => absurd rfl hne⟩
      · rw [if_neg ha] at h
        by_cases haddr : arg_addrs t.regs (syscall_path_args (syscall_number t.regs)) = []
        · rw [if_pos haddr] at h
          cases h
          refine ⟨by omega, ?_⟩
          intro st hst
          rw [haddr] at hst
          cases hst
          exact ⟨fun _ => ⟨rfl, rfl⟩, fun hne => absurd rfl hne⟩
        · rw [if_neg haddr] at h
          split at h
          next e heq => cases h
          next st2 heq =>
              by_cases hrel : st2.relocated = []
              · rw [if_pos hrel] at h
                cases h
                refine ⟨Nat.le_succ _, ?_⟩
                intro st hst
                rw [heq] at hst
                cases hst
                exact ⟨fun _ => ⟨rfl, rfl⟩, fun hne => absurd hrel hne⟩
              · rw [if_neg hrel] at h
                by_cases hset : t.setRegsOk = true
                · rw [if_pos hset] at h
                  cases h
                  refine ⟨Nat.le_refl _, ?_⟩
                  intro st hst
                  rw [heq] at hst
                  cases hst
                  exact ⟨fun h0 => absurd h0 hrel, fun _ => ⟨rfl, rfl⟩⟩
                · rw [if_neg hset] at h
                  cases h

theorem set_regs_at_most_once_witness :
    tIdle.setRegsCount ≤ tIdle.setRegsCount + 1 ∧ tIdle.regs = tIdle.regs := by
  have h := set_regs_at_most_once tIdle [] tIdle rfl
  exact ⟨h.1, ((h.2 (initSt tIdle.regs tIdle.mem) rfl).1 rfl).2⟩

end Ptrace
